import Mathlib

/-!
Shallow embedding of the LRS backtest core (`app.py`): split-jump
normalisation, rolling-mean indicator, crossing signals, position state,
equity curves, trade-point extraction and the risk metrics, together with
theorems settling the specification claims.

Price columns are modelled as functions `ℕ → K` over a linear ordered field
(`ℚ` for concrete evaluation, `ℝ` where the metric formulas need `sqrt`),
with the frame length carried separately.  Pandas `NaN` sentinels are
modelled with `Option`.
-/

namespace LRS

variable {K : Type*} [LinearOrderedField K]

/-- Daily percentage change of a price column, first entry filled with `0`
(`pct_change().fillna(0)` in the source; the split-adjustment loop only looks
at indices `d ≥ 1`, where the fill value is irrelevant). -/
def ret (p : ℕ → K) : ℕ → K
  | 0 => 0
  | t + 1 => p (t + 1) / p t - 1

/-- Candidate-and-guard test of the split loop in `adjust_for_splits`: day `d`
must have a relative change of magnitude at least `thr`, and the implied
ratio `1 + r` must lie strictly between `0` and `1` (a pure downward jump);
day `0` has no defined change (`dropna`). -/
def appliedb (p : ℕ → K) (thr : K) (d : ℕ) : Bool :=
  decide (1 ≤ d) && decide (thr ≤ |ret p d|) &&
    decide (0 < 1 + ret p d) && decide (1 + ret p d < 1)

/-- Split/cliff correction of `app.py`: scan candidate days in index order;
for each applied candidate `d`, multiply every price strictly before `d` by
the ratio `1 + r d`.  Candidates and ratios are computed once from the input
column (`Price_raw`), exactly as the source loop does. -/
def adjust_for_splits (p : ℕ → K) (thr : K) (n : ℕ) : ℕ → K :=
  (List.range n).foldl
    (fun g d =>
      if appliedb p thr d then fun t => if t < d then g t * (1 + ret p d) else g t
      else g) p

/-- Price loading of `app.py` (`load_price_data`): an empty frame is returned
as is, a non-empty frame is passed through `adjust_for_splits`.  Every path
returns normally (`Except.ok`); the source raises no exception. -/
def load_price_data (p : ℕ → K) (thr : K) (n : ℕ) : Except String ((ℕ → K) × ℕ) :=
  if n = 0 then Except.ok (p, n) else Except.ok (adjust_for_splits p thr n, n)

/-- Rolling mean (`rolling(window=w).mean()`): `none` during warm-up, the
mean of the trailing `w` prices once `w` prices are available. -/
def smaOpt (p : ℕ → K) (w : ℕ) (t : ℕ) : Option K :=
  if w ≤ t + 1 then some ((∑ j in Finset.range w, p (t + 1 - w + j)) / w) else none

/-- Value of the rolling mean at index `t` of the frame after
`dropna(subset=["MA"])`, i.e. at original index `t + (w - 1)`:
the mean of `p t, …, p (t + w - 1)`. -/
def dMA (p : ℕ → K) (w : ℕ) (t : ℕ) : K :=
  (∑ j in Finset.range w, p (t + j)) / w

/-- Crossing signals of `app.py`: the first row is forced to `1`; afterwards
`1` on an upward cross, `-1` on a downward cross, `0` otherwise. -/
def signal (p m : ℕ → K) : ℕ → Int
  | 0 => 1
  | t + 1 =>
    if m (t + 1) < p (t + 1) ∧ p t ≤ m t then 1
    else if p (t + 1) < m (t + 1) ∧ m t ≤ p t then -1
    else 0

/-- Position fold of `app.py`: `current` starts at `1`, is set to `1` on
signal `1`, to `0` on signal `-1`, and kept otherwise. -/
def position (p m : ℕ → K) : ℕ → ℕ
  | 0 => if signal p m 0 = 1 then 1 else if signal p m 0 = -1 then 0 else 1
  | t + 1 =>
    if signal p m (t + 1) = 1 then 1
    else if signal p m (t + 1) = -1 then 0
    else position p m t

/-- Iterative strategy equity curve of `app.py` (lines 258-263): start at `1`;
grow by the day's return when the previous day's position was `1`, stay flat
otherwise. -/
def equity (r : ℕ → K) (pos : ℕ → ℕ) : ℕ → K
  | 0 => 1
  | i + 1 => if pos i = 1 then equity r pos i * (1 + r (i + 1)) else equity r pos i

/-- Running product `∏_{i ≤ t} f i` (`cumprod` on the column `f`). -/
def cumprod (f : ℕ → K) (t : ℕ) : K :=
  ∏ i in Finset.range (t + 1), f i

/-- Same-day strategy return column of `app.py`
(`Strategy_Return = Return * Position`). -/
def stratReturn (p m : ℕ → K) (t : ℕ) : K :=
  ret p t * (position p m t : K)

/-- Buy markers of `app.py`: `(i, Price[i])` for every `i ≥ 1` with
`Signal[i] == 1` (index `0` is skipped by the comprehension). -/
def buy_points (p m : ℕ → K) (n : ℕ) : List (ℕ × K) :=
  ((List.range n).filter fun i => decide (1 ≤ i) && (signal p m i == 1)).map
    fun i => (i, p i)

/-- Sell markers of `app.py`: `(i, Price[i])` for every `i ≥ 1` with
`Signal[i] == -1`. -/
def sell_points (p m : ℕ → K) (n : ℕ) : List (ℕ × K) :=
  ((List.range n).filter fun i => decide (1 ≤ i) && (signal p m i == -1)).map
    fun i => (i, p i)

/-- Column slice `df.loc[a:b]` (both ends inclusive) of a column `e`. -/
def clipList (e : ℕ → K) (a b : ℕ) : List K :=
  (List.range (b + 1 - a)).map fun t => e (a + t)

/-- Renormalisation `col /= col.iloc[0]` of a sliced column. -/
def renorm (l : List K) : List K :=
  l.map fun x => x / l.headD 0

/-- Helper for `runningMax`, carrying the maximum seen so far. -/
def runningMaxAux (cur : K) : List K → List K
  | [] => []
  | x :: xs => max cur x :: runningMaxAux (max cur x) xs

/-- Pandas `.cummax()` on a column. -/
def runningMax : List K → List K
  | [] => []
  | x :: xs => x :: runningMaxAux x xs

/-- Minimum of a non-empty column (`.min()`); `0` for an empty column. -/
def minD : List K → K
  | [] => 0
  | x :: xs => xs.foldl min x

/-- Maximum drawdown of `app.py`: `1 - (curve / curve.cummax()).min()`. -/
def mddOf (c : List K) : K :=
  1 - minD ((c.zip (runningMax c)).map fun q => q.1 / q.2)

/-- The iterative equity curve as a finite column of length `n`. -/
def equityList (r : ℕ → K) (pos : ℕ → ℕ) (n : ℕ) : List K :=
  (List.range n).map (equity r pos)

/-- The return column as a finite list of length `n`. -/
def retList (p : ℕ → K) (n : ℕ) : List K :=
  (List.range n).map (ret p)

/-- The same-day strategy-return column as a finite list of length `n`. -/
def stratReturnList (p m : ℕ → K) (n : ℕ) : List K :=
  (List.range n).map (stratReturn p m)

/-- Total return of a finalised equity curve: `curve.iloc[-1] - 1`. -/
def totalReturn (c : List K) : K := c.getLastD 1 - 1

/-- Arithmetic mean of a column (`.mean()`). -/
noncomputable def meanR (xs : List ℝ) : ℝ := xs.sum / xs.length

/-- Sample variance (`ddof = 1`, the pandas default). -/
noncomputable def sampleVar (xs : List ℝ) : ℝ :=
  (xs.map fun x => (x - meanR xs) ^ 2).sum / ((xs.length : ℝ) - 1)

/-- Sample standard deviation. -/
noncomputable def sampleStd (xs : List ℝ) : ℝ := Real.sqrt (sampleVar xs)

/-- Pandas `.std()` of a column: `NaN` (modelled as `none`) when fewer than
two values are present, the sample standard deviation otherwise. -/
noncomputable def stdOpt (xs : List ℝ) : Option ℝ :=
  if xs.length ≤ 1 then none else some (sampleStd xs)

/-- `calc_metrics` of `app.py`: returns `(vol, sharpe, sortino)`, with `none`
modelling the `np.nan` sentinels.  A float comparison with `NaN` is false, so
a `none` downside deviation yields a `none` sortino, exactly as
`downside > 0` fails on `NaN`. -/
noncomputable def calc_metrics (xs : List ℝ) : Option ℝ × Option ℝ × Option ℝ :=
  if xs.length ≤ 1 then (none, none, none)
  else
    (some (sampleStd xs * Real.sqrt 252),
     if 0 < sampleStd xs then some (meanR xs / sampleStd xs * Real.sqrt 252) else none,
     match stdOpt (xs.filter fun x => decide (x < 0)) with
     | none => none
     | some d => if 0 < d then some (meanR xs / d * Real.sqrt 252) else none)

/-! ## Basic facts about returns, positions and the equity curves -/

lemma one_add_ret_pos (p : ℕ → K) (hp : ∀ t, 0 < p t) (t : ℕ) :
    0 < 1 + ret p t := by
  cases t with
  | zero => norm_num [ret]
  | succ t =>
    have h : 1 + ret p (t + 1) = p (t + 1) / p t := by
      simp only [ret]; ring
    rw [h]
    exact div_pos (hp _) (hp _)

lemma equity_pos (p : ℕ → K) (pos : ℕ → ℕ) (hp : ∀ t, 0 < p t) :
    ∀ i, 0 < equity (ret p) pos i
  | 0 => by simp [equity]
  | i + 1 => by
    have ih := equity_pos p pos hp i
    by_cases h : pos i = 1
    · simp only [equity, if_pos h]
      exact mul_pos ih (one_add_ret_pos p hp _)
    · simp only [equity, if_neg h]
      exact ih

lemma cumprod_ret_pos (p : ℕ → K) (hp : ∀ t, 0 < p t) (t : ℕ) :
    0 < cumprod (fun i => 1 + ret p i) t :=
  Finset.prod_pos fun i _ => one_add_ret_pos p hp i

lemma position_eq_zero_or_one (p m : ℕ → K) :
    ∀ t, position p m t = 0 ∨ position p m t = 1
  | 0 => by unfold position; split_ifs <;> simp
  | t + 1 => by
    have ih := position_eq_zero_or_one p m t
    unfold position; split_ifs <;> simp [ih]

lemma equity_eq_cumprod (p : ℕ → K) (pos : ℕ → ℕ)
    (hpos : ∀ i, pos i = 0 ∨ pos i = 1) :
    ∀ t, equity (ret p) pos t = cumprod (fun i => 1 + ret p i * (pos (i - 1) : K)) t
  | 0 => by simp [equity, cumprod, ret]
  | t + 1 => by
    have ih := equity_eq_cumprod p pos hpos t
    have hprod : cumprod (fun i => 1 + ret p i * (pos (i - 1) : K)) (t + 1)
        = cumprod (fun i => 1 + ret p i * (pos (i - 1) : K)) t
          * (1 + ret p (t + 1) * (pos t : K)) := by
      unfold cumprod
      rw [Finset.prod_range_succ]
      norm_num
    rcases hpos t with h | h
    · have he : equity (ret p) pos (t + 1) = equity (ret p) pos t := by
        simp [equity, h]
      rw [he, hprod, ih, h]
      push_cast
      ring
    · have he : equity (ret p) pos (t + 1)
          = equity (ret p) pos t * (1 + ret p (t + 1)) := by
        simp [equity, h]
      rw [he, hprod, ih, h]
      push_cast
      ring

/-! ## C1 — execution lag -/

/-- Concrete three-day price column used to separate the two lags. -/
def pEx1 : ℕ → ℚ := fun t => [(10 : ℚ), 12, 11].getD t 0

/-- The post-warm-up price column of `pEx1` for a 2-day window. -/
def dpEx1 : ℕ → ℚ := fun t => pEx1 (t + 1)

/-- The post-warm-up rolling mean of `pEx1` for a 2-day window. -/
def dmEx1 : ℕ → ℚ := dMA pEx1 2

lemma dMA_two (p : ℕ → ℚ) (t : ℕ) : dMA p 2 t = (p t + p (t + 1)) / 2 := by
  unfold dMA
  rw [Finset.sum_range_succ, Finset.sum_range_one]
  norm_num

lemma dmEx1_zero : dmEx1 0 = 11 := by rw [dmEx1, dMA_two]; norm_num [pEx1]

lemma dmEx1_one : dmEx1 1 = 23 / 2 := by rw [dmEx1, dMA_two]; norm_num [pEx1]

lemma sigEx1_one : signal dpEx1 dmEx1 1 = -1 := by
  simp [signal, dmEx1_zero, dmEx1_one, dpEx1, pEx1]
  norm_num

lemma posEx1_zero : position dpEx1 dmEx1 0 = 1 := by
  simp [position, signal]

lemma posEx1_one : position dpEx1 dmEx1 1 = 0 := by
  simp [position, sigEx1_one]

lemma retEx1_one : ret dpEx1 1 = 11 / 12 - 1 := by
  simp [ret, dpEx1, pEx1]

/-- C1 (counterexample): on the prices 10, 12, 11 with a 2-day rolling mean
(a sell crossing on a day with a nonzero return), the iteratively built
`Equity_LRS` differs from the running product of `1 + Strategy_Return` (so
lag 0 fails), and `Strategy_Return` differs from the lag-1 series
`r[t] * Position[t-1]` that the equity loop compounds (so lag 1 fails for
the series handed to the metrics): no single lag is applied consistently. -/
theorem no_single_lag_counterexample :
    equity (ret dpEx1) (position dpEx1 dmEx1) 1
        ≠ cumprod (fun i => 1 + stratReturn dpEx1 dmEx1 i) 1 ∧
    stratReturn dpEx1 dmEx1 1 ≠ ret dpEx1 1 * (position dpEx1 dmEx1 0 : ℚ) := by
  have hsr0 : stratReturn dpEx1 dmEx1 0 = 0 := by simp [stratReturn, ret]
  have hsr1 : stratReturn dpEx1 dmEx1 1 = 0 := by simp [stratReturn, posEx1_one]
  have he : equity (ret dpEx1) (position dpEx1 dmEx1) 1 = 11 / 12 := by
    simp [equity, posEx1_zero, retEx1_one]
  have hc : cumprod (fun i => 1 + stratReturn dpEx1 dmEx1 i) 1 = 1 := by
    unfold cumprod
    rw [Finset.prod_range_succ, Finset.prod_range_one]
    rw [hsr0, hsr1]
    norm_num
  constructor
  · rw [he, hc]; norm_num
  · rw [hsr1, retEx1_one, posEx1_zero]; norm_num

/-- C1 (amended): the equity loop of `app.py` compounds the one-day-lagged
strategy return: `Equity_LRS` equals the running product of
`1 + r[t] * Position[t-1]`, while the `Strategy_Return` column handed to the
metrics is the unlagged `r[t] * Position[t]`. -/
theorem equity_is_cumprod_of_lagged_returns (p q m : ℕ → K) (t : ℕ) :
    equity (ret p) (position q m) t
      = cumprod (fun i => 1 + ret p i * (position q m (i - 1) : K)) t :=
  equity_eq_cumprod p (position q m) (position_eq_zero_or_one q m) t

/-! ## C2 — clipped and renormalised curves start at exactly 1 -/

/-- C2: both equity curves are built over the whole post-warm-up frame, then
sliced to `[a, b]`, then divided by the slice's first value; the first value
of each clipped curve is exactly `1`. -/
theorem clipped_curves_start_at_one (q : ℕ → K) (pos : ℕ → ℕ) (a b : ℕ)
    (hab : a ≤ b) (hq : ∀ t, 0 < q t) :
    (renorm (clipList (equity (ret q) pos) a b)).headD 0 = 1 ∧
    (renorm (clipList (cumprod fun i => 1 + ret q i) a b)).headD 0 = 1 := by
  have key : ∀ e : ℕ → K, 0 < e a → (renorm (clipList e a b)).headD 0 = 1 := by
    intro e he
    obtain ⟨k, hk⟩ : ∃ k, b + 1 - a = k + 1 := ⟨b - a, by omega⟩
    have hhead : (clipList e a b).headD 0 = e a := by
      unfold clipList
      rw [hk, List.range_succ_eq_map]
      simp
    have hne : clipList e a b ≠ [] := by
      unfold clipList
      rw [hk, List.range_succ_eq_map]
      simp
    have hren : ∀ l : List K, l ≠ [] → (renorm l).headD 0 = l.headD 0 / l.headD 0 := by
      intro l hl
      cases l with
      | nil => exact absurd rfl hl
      | cons x xs => simp [renorm]
    rw [hren _ hne, hhead]
    exact div_self (ne_of_gt he)
  exact ⟨key _ (equity_pos q pos hq a), key _ (cumprod_ret_pos q hq a)⟩

/-- C2 (witness): the two normalisation facts at a concrete one-day window
over a constant positive price column. -/
theorem clipped_curves_start_at_one_witness :
    (0 : ℕ) ≤ 0 ∧ (∀ _t : ℕ, 0 < (1 : ℚ)) ∧
    ((renorm (clipList (equity (ret fun _ : ℕ => (1 : ℚ)) fun _ : ℕ => 1) 0 0)).headD 0 = 1 ∧
     (renorm (clipList (cumprod fun i => 1 + ret (fun _ : ℕ => (1 : ℚ)) i) 0 0)).headD 0 = 1) :=
  ⟨le_refl 0, fun _ => one_pos,
    clipped_curves_start_at_one (fun _ : ℕ => (1 : ℚ)) (fun _ : ℕ => 1) 0 0 (le_refl 0)
      fun _ => one_pos⟩

/-! ## C10 — idle-capital frame property of the equity loop -/

/-- C10: for `i ≥ 1` the equity loop leaves capital unchanged when the
previous day's position is `0` and compounds the day's return when it is
invested, and the curve stays strictly positive for positive prices. -/
theorem equity_idle_capital_frame (p q m : ℕ → K) (i : ℕ) (hi : 1 ≤ i)
    (hp : ∀ t, 0 < p t) :
    (position q m (i - 1) = 0 →
      equity (ret p) (position q m) i = equity (ret p) (position q m) (i - 1)) ∧
    (position q m (i - 1) ≠ 0 →
      equity (ret p) (position q m) i
        = equity (ret p) (position q m) (i - 1) * (1 + ret p i)) ∧
    0 < equity (ret p) (position q m) i := by
  obtain ⟨j, rfl⟩ : ∃ j, i = j + 1 := ⟨i - 1, by omega⟩
  simp only [Nat.add_sub_cancel]
  refine ⟨?_, ?_, equity_pos p _ hp _⟩
  · intro h
    simp [equity, h]
  · intro h
    have h1 : position q m j = 1 := (position_eq_zero_or_one q m j).resolve_left h
    simp [equity, h1]

/-- Concrete price column with one downward crossing (10 then 5, then flat
at 5), everywhere positive. -/
def pEx9 : ℕ → ℚ := fun t => [(10 : ℚ), 5].getD t 5

/-- Constant indicator column sitting at 8, between the two prices. -/
def mEx9 : ℕ → ℚ := fun _ => 8

lemma pEx9_pos : ∀ t, 0 < pEx9 t := by
  intro t
  match t with
  | 0 => norm_num [pEx9]
  | 1 => norm_num [pEx9]
  | k + 2 =>
    have : [(10 : ℚ), 5].getD (k + 2) 5 = 5 :=
      List.getD_eq_default _ _ (by simp)
    simp [pEx9, this]

/-- C10 (witness): the frame property evaluated on the concrete crossing
example at day 1. -/
theorem equity_idle_capital_frame_witness :
    (1 : ℕ) ≤ 1 ∧ (∀ t, 0 < pEx9 t) ∧
    ((position pEx9 mEx9 0 = 0 →
        equity (ret pEx9) (position pEx9 mEx9) 1
          = equity (ret pEx9) (position pEx9 mEx9) 0) ∧
     (position pEx9 mEx9 0 ≠ 0 →
        equity (ret pEx9) (position pEx9 mEx9) 1
          = equity (ret pEx9) (position pEx9 mEx9) 0 * (1 + ret pEx9 1)) ∧
     0 < equity (ret pEx9) (position pEx9 mEx9) 1) :=
  ⟨le_refl 1, pEx9_pos,
    equity_idle_capital_frame pEx9 pEx9 mEx9 1 (le_refl 1) pEx9_pos⟩

/-! ## C9 — forced long on day one -/

/-- C9: the first signal is unconditionally `1` and the first position is
invested, whatever the price/indicator relation; the position can only reach
`0` after a downward crossing at some day `s ≥ 1`. -/
theorem first_day_forced_long (p m : ℕ → K) :
    signal p m 0 = 1 ∧ position p m 0 = 1 ∧
    ∀ t, position p m t = 0 →
      ∃ s, 1 ≤ s ∧ s ≤ t ∧ p s < m s ∧ m (s - 1) ≤ p (s - 1) := by
  refine ⟨rfl, by simp [position, signal], ?_⟩
  intro t
  induction t with
  | zero =>
    intro h
    simp [position, signal] at h
  | succ t ih =>
    intro h
    by_cases h1 : signal p m (t + 1) = 1
    · simp [position, h1] at h
    · by_cases h2 : signal p m (t + 1) = -1
      · have hc : p (t + 1) < m (t + 1) ∧ m t ≤ p t := by
          simp only [signal] at h2
          split_ifs at h2 with hA hB
          exact hB
        exact ⟨t + 1, by omega, le_refl _, hc.1, by simpa using hc.2⟩
      · have hpos : position p m (t + 1) = position p m t := by
          simp [position, h1, h2]
        rw [hpos] at h
        obtain ⟨s, hs1, hs2, hs3, hs4⟩ := ih h
        exact ⟨s, hs1, by omega, hs3, hs4⟩

lemma sigEx9_one : signal pEx9 mEx9 1 = -1 := by
  simp [signal, pEx9, mEx9]
  norm_num

lemma posEx9_one : position pEx9 mEx9 1 = 0 := by
  simp [position, sigEx9_one]

/-- C9 (witness): on the concrete downward-crossing data, day 1 is flat and
the promised crossing day exists. -/
theorem first_day_forced_long_witness :
    position pEx9 mEx9 1 = 0 ∧
    ∃ s, 1 ≤ s ∧ s ≤ 1 ∧ pEx9 s < mEx9 s ∧ mEx9 (s - 1) ≤ pEx9 (s - 1) :=
  ⟨posEx9_one, (first_day_forced_long pEx9 mEx9).2.2 1 posEx9_one⟩

/-! ## C5 — edge-triggered transitions, warm-up never fires -/

/-- C5: the frame kept after `dropna` carries a defined indicator at every
row (`smaOpt` is `some` exactly from index `w - 1` on, and row `t` of the
kept frame is original row `t + (w - 1)` with value `dMA p w t`), and on the
kept frame the position becomes `1` exactly on an upward crossing, `0`
exactly on a downward crossing, and persists otherwise; dropped warm-up rows
are never evaluated, so they never trigger a transition. -/
theorem signal_is_edge_triggered (p : ℕ → K) (w : ℕ) (hw : 1 ≤ w) :
    (∀ t, smaOpt p w (t + (w - 1)) = some (dMA p w t)) ∧
    (∀ t, (smaOpt p w t).isSome = true ↔ w - 1 ≤ t) ∧
    (∀ t, position (fun s => p (s + (w - 1))) (dMA p w) (t + 1)
        = if dMA p w (t + 1) < p (t + 1 + (w - 1)) ∧ p (t + (w - 1)) ≤ dMA p w t
            then 1
          else if p (t + 1 + (w - 1)) < dMA p w (t + 1) ∧ dMA p w t ≤ p (t + (w - 1))
            then 0
          else position (fun s => p (s + (w - 1))) (dMA p w) t) := by
  refine ⟨?_, ?_, ?_⟩
  · intro t
    unfold smaOpt
    rw [if_pos (by omega)]
    unfold dMA
    have harg : ∀ j, t + (w - 1) + 1 - w + j = t + j := fun j => by omega
    simp only [harg]
  · intro t
    unfold smaOpt
    split_ifs with h
    · simp only [Option.isSome_some, true_iff]
      omega
    · simp only [Option.isSome_none, Bool.false_eq_true, false_iff]
      omega
  · intro t
    by_cases hA : dMA p w (t + 1) < p (t + 1 + (w - 1)) ∧ p (t + (w - 1)) ≤ dMA p w t
    · have hs : signal (fun s => p (s + (w - 1))) (dMA p w) (t + 1) = 1 := by
        simp only [signal]
        rw [if_pos (by simpa using hA)]
      rw [show position (fun s => p (s + (w - 1))) (dMA p w) (t + 1) = 1 from by
        simp [position, hs]]
      rw [if_pos hA]
    · by_cases hB : p (t + 1 + (w - 1)) < dMA p w (t + 1) ∧ dMA p w t ≤ p (t + (w - 1))
      · have hs : signal (fun s => p (s + (w - 1))) (dMA p w) (t + 1) = -1 := by
          simp only [signal]
          rw [if_neg (by simpa using hA), if_pos (by simpa using hB)]
        rw [show position (fun s => p (s + (w - 1))) (dMA p w) (t + 1) = 0 from by
          simp [position, hs]]
        rw [if_neg hA, if_pos hB]
      · have hs : signal (fun s => p (s + (w - 1))) (dMA p w) (t + 1) = 0 := by
          simp only [signal]
          rw [if_neg (by simpa using hA), if_neg (by simpa using hB)]
        rw [show position (fun s => p (s + (w - 1))) (dMA p w) (t + 1)
            = position (fun s => p (s + (w - 1))) (dMA p w) t from by
          simp [position, hs]]
        rw [if_neg hA, if_neg hB]

/-- C5 (witness): the whole statement instantiated at a constant price column
and a 2-day window. -/
theorem signal_is_edge_triggered_witness :
    (1 : ℕ) ≤ 2 ∧
    ((∀ t, smaOpt (fun _ : ℕ => (1 : ℚ)) 2 (t + (2 - 1))
        = some (dMA (fun _ : ℕ => (1 : ℚ)) 2 t)) ∧
     (∀ t, (smaOpt (fun _ : ℕ => (1 : ℚ)) 2 t).isSome = true ↔ 2 - 1 ≤ t) ∧
     (∀ t, position (fun s => (fun _ : ℕ => (1 : ℚ)) (s + (2 - 1)))
            (dMA (fun _ : ℕ => (1 : ℚ)) 2) (t + 1)
        = if dMA (fun _ : ℕ => (1 : ℚ)) 2 (t + 1)
              < (fun _ : ℕ => (1 : ℚ)) (t + 1 + (2 - 1)) ∧
            (fun _ : ℕ => (1 : ℚ)) (t + (2 - 1)) ≤ dMA (fun _ : ℕ => (1 : ℚ)) 2 t
            then 1
          else if (fun _ : ℕ => (1 : ℚ)) (t + 1 + (2 - 1))
              < dMA (fun _ : ℕ => (1 : ℚ)) 2 (t + 1) ∧
            dMA (fun _ : ℕ => (1 : ℚ)) 2 t ≤ (fun _ : ℕ => (1 : ℚ)) (t + (2 - 1))
            then 0
          else position (fun s => (fun _ : ℕ => (1 : ℚ)) (s + (2 - 1)))
            (dMA (fun _ : ℕ => (1 : ℚ)) 2) t)) :=
  ⟨by norm_num, signal_is_edge_triggered (fun _ : ℕ => (1 : ℚ)) 2 (by norm_num)⟩

/-! ## C3 — trade events versus position transitions -/

lemma length_filter_range (f : ℕ → Bool) (n : ℕ) :
    ((List.range n).filter f).length
      = ((Finset.range n).filter fun i => f i = true).card := by
  induction n with
  | zero => simp
  | succ n ih =>
    rw [List.range_succ, List.filter_append, Finset.range_succ, Finset.filter_insert]
    by_cases h : f n = true
    · rw [if_pos h, Finset.card_insert_of_not_mem (by simp)]
      simp [h, ih]
    · rw [if_neg h]
      simp [h, ih]

lemma buy_points_length (p m : ℕ → K) (n : ℕ) :
    (buy_points p m n).length
      = ((Finset.Ico 1 n).filter fun i => signal p m i = 1).card := by
  unfold buy_points
  rw [List.length_map, length_filter_range]
  congr 1
  ext i
  simp only [Finset.mem_filter, Finset.mem_range, Finset.mem_Ico,
    Bool.and_eq_true, decide_eq_true_eq, beq_iff_eq]
  constructor
  · rintro ⟨hn, h1, hs⟩
    exact ⟨⟨h1, hn⟩, hs⟩
  · rintro ⟨⟨h1, hn⟩, hs⟩
    exact ⟨hn, h1, hs⟩

lemma sell_points_length (p m : ℕ → K) (n : ℕ) :
    (sell_points p m n).length
      = ((Finset.Ico 1 n).filter fun i => signal p m i = -1).card := by
  unfold sell_points
  rw [List.length_map, length_filter_range]
  congr 1
  ext i
  simp only [Finset.mem_filter, Finset.mem_range, Finset.mem_Ico,
    Bool.and_eq_true, decide_eq_true_eq, beq_iff_eq]
  constructor
  · rintro ⟨hn, h1, hs⟩
    exact ⟨⟨h1, hn⟩, hs⟩
  · rintro ⟨⟨h1, hn⟩, hs⟩
    exact ⟨hn, h1, hs⟩

lemma transition_has_signal (p m : ℕ → K) (i : ℕ) (hi : 1 ≤ i)
    (h : position p m i ≠ position p m (i - 1)) :
    signal p m i = 1 ∨ signal p m i = -1 := by
  obtain ⟨j, rfl⟩ : ∃ j, i = j + 1 := ⟨i - 1, by omega⟩
  by_cases h1 : signal p m (j + 1) = 1
  · exact Or.inl h1
  · by_cases h2 : signal p m (j + 1) = -1
    · exact Or.inr h2
    · exfalso
      apply h
      simp only [Nat.add_sub_cancel]
      simp [position, h1, h2]

/-- C3 (amended): buy and sell events are exactly the nonzero signals at
indices `i ≥ 1` (one BUY per upward-cross signal, one SELL per
downward-cross signal, each carrying that day's price index); the first
point never emits an event; every position transition at `i ≥ 1` coincides
with such a signal, so the event count is at least — but not necessarily
equal to — the transition count. -/
theorem trade_events_are_signals (p m : ℕ → K) (n : ℕ) :
    (buy_points p m n).length
        = ((Finset.Ico 1 n).filter fun i => signal p m i = 1).card ∧
    (sell_points p m n).length
        = ((Finset.Ico 1 n).filter fun i => signal p m i = -1).card ∧
    (∀ e ∈ buy_points p m n, 1 ≤ e.1 ∧ e.2 = p e.1) ∧
    (∀ e ∈ sell_points p m n, 1 ≤ e.1 ∧ e.2 = p e.1) ∧
    ((Finset.Ico 1 n).filter fun i =>
        position p m i ≠ position p m (i - 1)).card
      ≤ (buy_points p m n).length + (sell_points p m n).length := by
  refine ⟨buy_points_length p m n, sell_points_length p m n, ?_, ?_, ?_⟩
  · intro e he
    unfold buy_points at he
    simp only [List.mem_map, List.mem_filter, List.mem_range,
      Bool.and_eq_true, decide_eq_true_eq] at he
    obtain ⟨i, ⟨_, h1, _⟩, rfl⟩ := he
    exact ⟨h1, rfl⟩
  · intro e he
    unfold sell_points at he
    simp only [List.mem_map, List.mem_filter, List.mem_range,
      Bool.and_eq_true, decide_eq_true_eq] at he
    obtain ⟨i, ⟨_, h1, _⟩, rfl⟩ := he
    exact ⟨h1, rfl⟩
  · rw [buy_points_length p m n, sell_points_length p m n]
    have hsub : (Finset.Ico 1 n).filter
          (fun i => position p m i ≠ position p m (i - 1))
        ⊆ (Finset.Ico 1 n).filter
          (fun i => signal p m i = 1 ∨ signal p m i = -1) := by
      intro i hi
      rw [Finset.mem_filter] at hi ⊢
      refine ⟨hi.1, ?_⟩
      have h1 : 1 ≤ i := (Finset.mem_Ico.mp hi.1).1
      exact transition_has_signal p m i h1 hi.2
    calc ((Finset.Ico 1 n).filter fun i =>
            position p m i ≠ position p m (i - 1)).card
        ≤ ((Finset.Ico 1 n).filter fun i =>
            signal p m i = 1 ∨ signal p m i = -1).card :=
          Finset.card_le_card hsub
      _ = ((Finset.Ico 1 n).filter fun i => signal p m i = 1).card
          + ((Finset.Ico 1 n).filter fun i => signal p m i = -1).card := by
          rw [Finset.filter_or]
          apply Finset.card_union_of_disjoint
          rw [Finset.disjoint_left]
          intro i hi1 hi2
          rw [Finset.mem_filter] at hi1 hi2
          rw [hi1.2] at hi2
          exact absurd hi2.2 (by norm_num)

/-- C3 (witness): the amended statement instantiated on the concrete column
behind `pEx1` with its 2-day rolling mean. -/
theorem trade_events_are_signals_witness :
    (buy_points dpEx1 dmEx1 2).length
        = ((Finset.Ico 1 2).filter fun i => signal dpEx1 dmEx1 i = 1).card ∧
    (sell_points dpEx1 dmEx1 2).length
        = ((Finset.Ico 1 2).filter fun i => signal dpEx1 dmEx1 i = -1).card ∧
    (∀ e ∈ buy_points dpEx1 dmEx1 2, 1 ≤ e.1 ∧ e.2 = dpEx1 e.1) ∧
    (∀ e ∈ sell_points dpEx1 dmEx1 2, 1 ≤ e.1 ∧ e.2 = dpEx1 e.1) ∧
    ((Finset.Ico 1 2).filter fun i =>
        position dpEx1 dmEx1 i ≠ position dpEx1 dmEx1 (i - 1)).card
      ≤ (buy_points dpEx1 dmEx1 2).length + (sell_points dpEx1 dmEx1 2).length :=
  trade_events_are_signals dpEx1 dmEx1 2

/-- Concrete five-day price column: flat, rise, flat, rise.  With a 2-day
rolling mean this produces two upward-cross signals while the position never
leaves the invested state. -/
def pEx3 : ℕ → ℚ := fun t => [(10 : ℚ), 10, 11, 11, 12].getD t 0

/-- The post-warm-up price column of `pEx3` for a 2-day window. -/
def dpEx3 : ℕ → ℚ := fun t => pEx3 (t + 1)

/-- The post-warm-up rolling mean of `pEx3` for a 2-day window. -/
def dmEx3 : ℕ → ℚ := dMA pEx3 2

lemma dmEx3_vals :
    dmEx3 0 = 10 ∧ dmEx3 1 = 21 / 2 ∧ dmEx3 2 = 11 ∧ dmEx3 3 = 23 / 2 := by
  refine ⟨?_, ?_, ?_, ?_⟩ <;> (rw [dmEx3, dMA_two]; norm_num [pEx3])

lemma sigEx3_one : signal dpEx3 dmEx3 1 = 1 := by
  obtain ⟨h0, h1, h2, h3⟩ := dmEx3_vals
  simp [signal, h0, h1, dpEx3, pEx3]
  norm_num

lemma sigEx3_two : signal dpEx3 dmEx3 2 = 0 := by
  obtain ⟨h0, h1, h2, h3⟩ := dmEx3_vals
  simp [signal, h1, h2, dpEx3, pEx3]

lemma sigEx3_three : signal dpEx3 dmEx3 3 = 1 := by
  obtain ⟨h0, h1, h2, h3⟩ := dmEx3_vals
  simp [signal, h2, h3, dpEx3, pEx3]
  norm_num

lemma posEx3_all_one : position dpEx3 dmEx3 0 = 1 ∧ position dpEx3 dmEx3 1 = 1
    ∧ position dpEx3 dmEx3 2 = 1 ∧ position dpEx3 dmEx3 3 = 1 := by
  have h0 : position dpEx3 dmEx3 0 = 1 := by simp [position, signal]
  have h1 : position dpEx3 dmEx3 1 = 1 := by simp [position, sigEx3_one]
  have h2 : position dpEx3 dmEx3 2 = 1 := by
    rw [show position dpEx3 dmEx3 2
        = if signal dpEx3 dmEx3 2 = 1 then 1 else if signal dpEx3 dmEx3 2 = -1 then 0
          else position dpEx3 dmEx3 1 from rfl]
    rw [sigEx3_two]
    norm_num [h1]
  have h3 : position dpEx3 dmEx3 3 = 1 := by simp [position, sigEx3_three]
  exact ⟨h0, h1, h2, h3⟩

/-- C3 (counterexample): on the concrete column, two BUY events and zero
SELL events are emitted while the position sequence has zero transitions —
the event count differs from the transition count, and the BUY and SELL
counts differ by two. -/
theorem trade_events_counterexample :
    (buy_points dpEx3 dmEx3 4).length + (sell_points dpEx3 dmEx3 4).length
        ≠ ((Finset.Ico 1 4).filter fun i =>
            position dpEx3 dmEx3 i ≠ position dpEx3 dmEx3 (i - 1)).card ∧
    (sell_points dpEx3 dmEx3 4).length + 1 < (buy_points dpEx3 dmEx3 4).length := by
  obtain ⟨hp0, hp1, hp2, hp3⟩ := posEx3_all_one
  have hbuy : (buy_points dpEx3 dmEx3 4).length = 2 := by
    simp [buy_points, List.range_succ, sigEx3_one, sigEx3_two, sigEx3_three]
  have hsell : (sell_points dpEx3 dmEx3 4).length = 0 := by
    simp [sell_points, List.range_succ, sigEx3_one, sigEx3_two, sigEx3_three]
  have htr : ((Finset.Ico 1 4).filter fun i =>
      position dpEx3 dmEx3 i ≠ position dpEx3 dmEx3 (i - 1)).card = 0 := by
    rw [Finset.card_eq_zero, Finset.filter_eq_empty_iff]
    intro i hi
    rw [Finset.mem_Ico] at hi
    obtain ⟨hi1, hi2⟩ := hi
    interval_cases i <;> simp [hp0, hp1, hp2, hp3]
  rw [hbuy, hsell, htr]
  norm_num

/-! ## C4 — idempotence of the split-jump correction -/

/-- Product of the ratios of all applied candidates strictly after `t`:
the closed form of what the sequential loop multiplies into index `t`. -/
def scaleFactor (p : ℕ → K) (thr : K) (n t : ℕ) : K :=
  ∏ d in (Finset.range n).filter fun d => appliedb p thr d = true ∧ t < d,
    (1 + ret p d)

lemma adjust_fold_succ (p : ℕ → K) (thr : K) (n : ℕ) :
    adjust_for_splits p thr (n + 1)
      = if appliedb p thr n then
          (fun t => if t < n then adjust_for_splits p thr n t * (1 + ret p n)
            else adjust_for_splits p thr n t)
        else adjust_for_splits p thr n := by
  unfold adjust_for_splits
  rw [List.range_succ, List.foldl_append]
  rfl

lemma adjust_closed_form (p : ℕ → K) (thr : K) :
    ∀ n t, adjust_for_splits p thr n t = p t * scaleFactor p thr n t := by
  intro n
  induction n with
  | zero =>
    intro t
    simp [adjust_for_splits, scaleFactor]
  | succ n ih =>
    intro t
    rw [adjust_fold_succ]
    have hscale : scaleFactor p thr (n + 1) t
        = scaleFactor p thr n t
          * (if appliedb p thr n = true ∧ t < n then 1 + ret p n else 1) := by
      unfold scaleFactor
      rw [Finset.range_succ, Finset.filter_insert]
      by_cases h : appliedb p thr n = true ∧ t < n
      · rw [if_pos h, if_pos h, Finset.prod_insert (by simp)]
        ring
      · rw [if_neg h, if_neg h, mul_one]
    by_cases ha : appliedb p thr n = true
    · rw [if_pos ha]
      by_cases ht : t < n
      · rw [if_pos ht, ih, hscale, if_pos ⟨ha, ht⟩]
        ring
      · rw [if_neg ht, ih, hscale, if_neg (by tauto), mul_one]
    · rw [if_neg ha, ih, hscale, if_neg (by tauto), mul_one]

lemma appliedb_ratio_pos {p : ℕ → K} {thr : K} {d : ℕ}
    (h : appliedb p thr d = true) : 0 < 1 + ret p d := by
  unfold appliedb at h
  simp only [Bool.and_eq_true, decide_eq_true_eq] at h
  exact h.1.2

lemma scaleFactor_pos (p : ℕ → K) (thr : K) (n t : ℕ) :
    0 < scaleFactor p thr n t :=
  Finset.prod_pos fun _d hd => appliedb_ratio_pos (Finset.mem_filter.mp hd).2.1

lemma scaleFactor_pred (p : ℕ → K) (thr : K) (n d : ℕ) (hd : 1 ≤ d)
    (hdn : d < n) :
    scaleFactor p thr n (d - 1)
      = (if appliedb p thr d = true then 1 + ret p d else 1)
        * scaleFactor p thr n d := by
  unfold scaleFactor
  by_cases ha : appliedb p thr d = true
  · rw [if_pos ha]
    have hset : ((Finset.range n).filter
          fun e => appliedb p thr e = true ∧ d - 1 < e)
        = insert d ((Finset.range n).filter
          fun e => appliedb p thr e = true ∧ d < e) := by
      ext e
      simp only [Finset.mem_insert, Finset.mem_filter, Finset.mem_range]
      constructor
      · rintro ⟨hen, hae, hde⟩
        by_cases hed : e = d
        · exact Or.inl hed
        · exact Or.inr ⟨hen, hae, by omega⟩
      · rintro (rfl | ⟨hen, hae, hde⟩)
        · exact ⟨hdn, ha, by omega⟩
        · exact ⟨hen, hae, by omega⟩
    rw [hset, Finset.prod_insert (by simp)]
  · rw [if_neg ha, one_mul]
    apply Finset.prod_congr
    · ext e
      simp only [Finset.mem_filter, Finset.mem_range]
      constructor
      · rintro ⟨hen, hae, hde⟩
        refine ⟨hen, hae, ?_⟩
        rcases Nat.lt_or_ge d e with h | h
        · exact h
        · have he : e = d := by omega
          rw [he] at hae
          exact absurd hae ha
      · rintro ⟨hen, hae, hde⟩
        exact ⟨hen, hae, by omega⟩
    · intro x _
      rfl

lemma ret_adjust (p : ℕ → K) (thr : K) (n : ℕ) (hp : ∀ t, 0 < p t) (d : ℕ)
    (hd : 1 ≤ d) (hdn : d < n) :
    ret (adjust_for_splits p thr n) d
      = if appliedb p thr d = true then 0 else ret p d := by
  obtain ⟨j, rfl⟩ : ∃ j, d = j + 1 := ⟨d - 1, by omega⟩
  have h1 : ret (adjust_for_splits p thr n) (j + 1)
      = adjust_for_splits p thr n (j + 1) / adjust_for_splits p thr n j - 1 := by
    simp [ret]
  rw [h1, adjust_closed_form, adjust_closed_form]
  have hpred := scaleFactor_pred p thr n (j + 1) (by omega) hdn
  simp only [Nat.add_sub_cancel] at hpred
  have hpj := hp j
  have hpj1 := hp (j + 1)
  have hs := scaleFactor_pos p thr n (j + 1)
  by_cases ha : appliedb p thr (j + 1) = true
  · rw [if_pos ha] at hpred ⊢
    rw [hpred]
    have hr : 1 + ret p (j + 1) = p (j + 1) / p j := by
      simp only [ret]
      ring
    rw [hr]
    have hden : p j * (p (j + 1) / p j * scaleFactor p thr n (j + 1))
        = p (j + 1) * scaleFactor p thr n (j + 1) := by
      field_simp
    rw [hden, div_self (ne_of_gt (mul_pos hpj1 hs)), sub_self]
  · rw [if_neg ha] at hpred ⊢
    rw [hpred, one_mul, mul_div_mul_right _ _ (ne_of_gt hs)]
    simp [ret]

lemma appliedb_adjust (p : ℕ → K) (thr : K) (n : ℕ) (hthr : 0 < thr)
    (hp : ∀ t, 0 < p t) (d : ℕ) (hdn : d < n) :
    appliedb (adjust_for_splits p thr n) thr d = false := by
  by_cases hd : 1 ≤ d
  · have hr := ret_adjust p thr n hp d hd hdn
    by_cases ha : appliedb p thr d = true
    · rw [if_pos ha] at hr
      unfold appliedb
      rw [hr]
      have hnot : ¬ thr ≤ |(0 : K)| := by
        rw [abs_zero]
        exact not_le.mpr hthr
      simp [hnot]
    · rw [if_neg ha] at hr
      unfold appliedb at ha ⊢
      rw [hr]
      simpa using ha
  · have hd0 : d = 0 := by omega
    subst hd0
    unfold appliedb
    simp

lemma adjust_of_no_candidates (q : ℕ → K) (thr : K) :
    ∀ n, (∀ d, d < n → appliedb q thr d = false) →
      ∀ t, adjust_for_splits q thr n t = q t := by
  intro n
  induction n with
  | zero =>
    intro _ t
    simp [adjust_for_splits]
  | succ n ih =>
    intro h t
    rw [adjust_fold_succ, h n (by omega)]
    simp only [Bool.false_eq_true, if_false]
    exact ih (fun d hd => h d (by omega)) t

/-- C4: the split-jump correction is idempotent — feeding the adjusted
prices back in as the price column changes nothing, because every applied
candidate day's relative change becomes exactly `0` after one pass and every
other day's relative change is unchanged. -/
theorem adjust_for_splits_idempotent (p : ℕ → K) (thr : K) (n : ℕ)
    (hthr : 0 < thr) (hp : ∀ t, 0 < p t) :
    ∀ t, adjust_for_splits (adjust_for_splits p thr n) thr n t
      = adjust_for_splits p thr n t :=
  adjust_of_no_candidates _ thr n fun d hd =>
    appliedb_adjust p thr n hthr hp d hd

/-- Concrete column with one genuine split jump (100 to 40, a 60% drop). -/
def pEx4 : ℕ → ℚ := fun t => [(100 : ℚ), 40, 44].getD t 1

lemma pEx4_pos : ∀ t, 0 < pEx4 t := by
  intro t
  match t with
  | 0 => norm_num [pEx4]
  | 1 => norm_num [pEx4]
  | 2 => norm_num [pEx4]
  | k + 3 =>
    have h : [(100 : ℚ), 40, 44].getD (k + 3) 1 = 1 :=
      List.getD_eq_default _ _ (by simp)
    simp [pEx4, h]

/-- C4 (witness): idempotence evaluated on the concrete split-jump column
with the source's threshold `0.3`. -/
theorem adjust_for_splits_idempotent_witness :
    (0 : ℚ) < 3 / 10 ∧ (∀ t, 0 < pEx4 t) ∧
    ∀ t, adjust_for_splits (adjust_for_splits pEx4 (3 / 10) 3) (3 / 10) 3 t
      = adjust_for_splits pEx4 (3 / 10) 3 t :=
  ⟨by norm_num, pEx4_pos,
    adjust_for_splits_idempotent pEx4 (3 / 10) 3 (by norm_num) pEx4_pos⟩

/-! ## C6 — behaviour on series with fewer than two points -/

/-- C6 (counterexample): a one-point series is returned as a normal
(`Except.ok`) degenerate result — the prices pass through unchanged and no
`InsufficientDataError` (or any error) is raised. -/
theorem insufficient_data_no_error_counterexample :
    (load_price_data (fun _ : ℕ => (5 : ℚ)) (3 / 10) 1).isOk = true ∧
    ((load_price_data (fun _ : ℕ => (5 : ℚ)) (3 / 10) 1).toOption.map
        fun r => (r.1 0, r.2)) = some (5, 1) := by
  constructor
  · rfl
  · have h : adjust_for_splits (fun _ : ℕ => (5 : ℚ)) (3 / 10) 1 0 = 5 :=
      adjust_of_no_candidates _ _ 1
        (fun d hd => by
          have hd0 : d = 0 := by omega
          subst hd0
          unfold appliedb
          simp) 0
    show some ((adjust_for_splits (fun _ : ℕ => (5 : ℚ)) (3 / 10) 1) 0, 1)
      = some (5, 1)
    rw [h]

/-- C6 (amended): the normaliser never fails; a series with fewer than two
points is returned unchanged as a degenerate result (`ok`), and handling of
emptiness is left to the caller. -/
theorem insufficient_data_passthrough (p : ℕ → K) (thr : K) (n : ℕ)
    (hn : n < 2) :
    ∃ q, load_price_data p thr n = Except.ok (q, n) ∧ ∀ t, q t = p t := by
  match n, hn with
  | 0, _ => exact ⟨p, rfl, fun _ => rfl⟩
  | 1, _ =>
    refine ⟨adjust_for_splits p thr 1, rfl, ?_⟩
    intro t
    apply adjust_of_no_candidates
    intro d hd
    have hd0 : d = 0 := by omega
    subst hd0
    unfold appliedb
    simp

/-- C6 (witness): the passthrough fact at a concrete one-point series. -/
theorem insufficient_data_passthrough_witness :
    (1 : ℕ) < 2 ∧
    ∃ q, load_price_data (fun _ : ℕ => (7 : ℚ)) (3 / 10) 1 = Except.ok (q, 1) ∧
      ∀ t, q t = 7 :=
  ⟨by norm_num, insufficient_data_passthrough (fun _ : ℕ => (7 : ℚ)) (3 / 10) 1
    (by norm_num)⟩

/-! ## C7 — not-applicable sentinels for Sharpe and Sortino -/

/-- C7: on a return column of length at least 2, a zero standard deviation
yields a `none` (NaN) Sharpe, an empty negative-return population yields a
`none` Sortino — never `0` and never an exception — and positive deviations
yield the annualised ratios `mean/std * sqrt 252` (with the deviation taken
over the negative returns only for Sortino). -/
theorem sharpe_sortino_nan_semantics (xs : List ℝ) (h2 : 2 ≤ xs.length) :
    (sampleStd xs = 0 → (calc_metrics xs).2.1 = none) ∧
    (xs.filter (fun x => decide (x < 0)) = [] → (calc_metrics xs).2.2 = none) ∧
    (0 < sampleStd xs →
      (calc_metrics xs).2.1 = some (meanR xs / sampleStd xs * Real.sqrt 252)) ∧
    (∀ d, stdOpt (xs.filter fun x => decide (x < 0)) = some d → 0 < d →
      (calc_metrics xs).2.2 = some (meanR xs / d * Real.sqrt 252)) := by
  have hlen : ¬ xs.length ≤ 1 := by omega
  refine ⟨?_, ?_, ?_, ?_⟩
  · intro h0
    unfold calc_metrics
    rw [if_neg hlen]
    show (if 0 < sampleStd xs
        then some (meanR xs / sampleStd xs * Real.sqrt 252) else none) = none
    rw [h0, if_neg (lt_irrefl (0 : ℝ))]
  · intro hf
    unfold calc_metrics
    rw [if_neg hlen]
    show (match stdOpt (xs.filter fun x => decide (x < 0)) with
      | none => none
      | some d => if 0 < d then some (meanR xs / d * Real.sqrt 252) else none)
        = none
    rw [hf]
    rfl
  · intro hpos
    unfold calc_metrics
    rw [if_neg hlen]
    show (if 0 < sampleStd xs
        then some (meanR xs / sampleStd xs * Real.sqrt 252) else none)
      = some (meanR xs / sampleStd xs * Real.sqrt 252)
    rw [if_pos hpos]
  · intro d hd hdpos
    unfold calc_metrics
    rw [if_neg hlen]
    show (match stdOpt (xs.filter fun x => decide (x < 0)) with
      | none => none
      | some d => if 0 < d then some (meanR xs / d * Real.sqrt 252) else none)
        = some (meanR xs / d * Real.sqrt 252)
    rw [hd]
    show (if 0 < d then some (meanR xs / d * Real.sqrt 252) else none)
      = some (meanR xs / d * Real.sqrt 252)
    rw [if_pos hdpos]

/-- C7 (witness): the statement instantiated on the concrete return column
`[1, 3]` (no negative returns, positive deviation). -/
theorem sharpe_sortino_nan_semantics_witness :
    2 ≤ ([(1 : ℝ), 3]).length ∧
    ((sampleStd [(1 : ℝ), 3] = 0 → (calc_metrics [(1 : ℝ), 3]).2.1 = none) ∧
     (([(1 : ℝ), 3]).filter (fun x => decide (x < 0)) = [] →
        (calc_metrics [(1 : ℝ), 3]).2.2 = none) ∧
     (0 < sampleStd [(1 : ℝ), 3] →
        (calc_metrics [(1 : ℝ), 3]).2.1
          = some (meanR [(1 : ℝ), 3] / sampleStd [(1 : ℝ), 3] * Real.sqrt 252)) ∧
     (∀ d, stdOpt (([(1 : ℝ), 3]).filter fun x => decide (x < 0)) = some d →
        0 < d →
        (calc_metrics [(1 : ℝ), 3]).2.2
          = some (meanR [(1 : ℝ), 3] / d * Real.sqrt 252))) :=
  ⟨by norm_num, sharpe_sortino_nan_semantics [(1 : ℝ), 3] (by norm_num)⟩

/-! ## C8 — constant price series scenario -/

lemma dMA_const (c : K) (w : ℕ) (hw : 1 ≤ w) (t : ℕ) :
    dMA (fun _ : ℕ => c) w t = c := by
  unfold dMA
  rw [Finset.sum_const, Finset.card_range, nsmul_eq_mul]
  have hw0 : (w : K) ≠ 0 := Nat.cast_ne_zero.mpr (by omega)
  field_simp

lemma ret_const (c : K) (hc : c ≠ 0) (t : ℕ) : ret (fun _ : ℕ => c) t = 0 := by
  cases t with
  | zero => rfl
  | succ t => simp [ret, div_self hc]

lemma signal_const_zero (c : K) (w : ℕ) (hw : 1 ≤ w) (t : ℕ) (ht : 1 ≤ t) :
    signal (fun _ : ℕ => c) (dMA (fun _ : ℕ => c) w) t = 0 := by
  obtain ⟨j, rfl⟩ : ∃ j, t = j + 1 := ⟨t - 1, by omega⟩
  simp [signal, dMA_const c w hw]

lemma position_const_one (c : K) (w : ℕ) (hw : 1 ≤ w) :
    ∀ t, position (fun _ : ℕ => c) (dMA (fun _ : ℕ => c) w) t = 1
  | 0 => by simp [position, signal]
  | t + 1 => by
    have ih := position_const_one c w hw t
    have hs := signal_const_zero c w hw (t + 1) (by omega)
    simp [position, hs, ih]

lemma equity_const_one (c : K) (w : ℕ) (hc : c ≠ 0) (hw : 1 ≤ w) :
    ∀ i, equity (ret fun _ : ℕ => c)
      (position (fun _ : ℕ => c) (dMA (fun _ : ℕ => c) w)) i = 1
  | 0 => rfl
  | i + 1 => by
    have ih := equity_const_one c w hc hw i
    have hr := ret_const c hc (i + 1)
    have hpos := position_const_one c w hw i
    simp [equity, hpos, hr, ih]

lemma all_one_getLastD (l : List K) (h : ∀ x ∈ l, x = 1) : l.getLastD 1 = 1 := by
  induction l with
  | nil => rfl
  | cons x xs ih =>
    rw [List.getLastD_cons]
    have hx : x = 1 := h x (by simp)
    subst hx
    exact ih fun y hy => h y (by simp [hy])

lemma runningMaxAux_ones (j : ℕ) :
    runningMaxAux (1 : K) (List.replicate j 1) = List.replicate j 1 := by
  induction j with
  | zero => rfl
  | succ j ih =>
    rw [List.replicate_succ]
    unfold runningMaxAux
    rw [max_self]
    rw [ih]

lemma zip_replicate_ones (j : ℕ) :
    (List.replicate j (1 : K)).zip (List.replicate j (1 : K))
      = List.replicate j ((1 : K), (1 : K)) := by
  induction j with
  | zero => rfl
  | succ j ih =>
    rw [List.replicate_succ, List.replicate_succ, List.zip_cons_cons, ih]

lemma foldl_min_ones (j : ℕ) :
    (List.replicate j (1 : K)).foldl min 1 = 1 := by
  induction j with
  | zero => rfl
  | succ j ih =>
    rw [List.replicate_succ, List.foldl_cons, min_self]
    exact ih

lemma mddOf_replicate_one (k : ℕ) (hk : 1 ≤ k) :
    mddOf (List.replicate k (1 : K)) = 0 := by
  obtain ⟨j, rfl⟩ : ∃ j, k = j + 1 := ⟨k - 1, by omega⟩
  unfold mddOf
  have hmax : runningMax (List.replicate (j + 1) (1 : K))
      = List.replicate (j + 1) 1 := by
    rw [List.replicate_succ]
    rw [show runningMax (1 :: List.replicate j (1 : K))
        = 1 :: runningMaxAux 1 (List.replicate j 1) from rfl]
    rw [runningMaxAux_ones]
  rw [hmax, zip_replicate_ones, List.map_replicate]
  have hone : ((1 : K), (1 : K)).1 / ((1 : K), (1 : K)).2 = 1 := by norm_num
  rw [hone]
  have hmin : minD (List.replicate (j + 1) (1 : K)) = 1 := by
    rw [List.replicate_succ]
    unfold minD
    exact foldl_min_ones j
  rw [hmin, sub_self]

lemma stratReturn_const_zero (c : K) (w : ℕ) (hc : c ≠ 0) (t : ℕ) :
    stratReturn (fun _ : ℕ => c) (dMA (fun _ : ℕ => c) w) t = 0 := by
  unfold stratReturn
  rw [ret_const c hc]
  ring

lemma calc_metrics_zeros (n : ℕ) :
    (calc_metrics (List.replicate n (0 : ℝ))).2.1 = none ∧
    (calc_metrics (List.replicate n (0 : ℝ))).2.2 = none := by
  by_cases hn : n ≤ 1
  · unfold calc_metrics
    rw [if_pos (by simpa using hn)]
    exact ⟨rfl, rfl⟩
  · unfold calc_metrics
    rw [if_neg (by simpa using hn)]
    constructor
    · show (if 0 < sampleStd (List.replicate n (0 : ℝ))
          then some (meanR (List.replicate n (0 : ℝ))
            / sampleStd (List.replicate n (0 : ℝ)) * Real.sqrt 252)
          else none) = none
      have hvar : sampleVar (List.replicate n (0 : ℝ)) = 0 := by
        unfold sampleVar meanR
        simp
      have hstd : sampleStd (List.replicate n (0 : ℝ)) = 0 := by
        rw [sampleStd, hvar, Real.sqrt_zero]
      rw [hstd, if_neg (lt_irrefl (0 : ℝ))]
    · have hfil : (List.replicate n (0 : ℝ)).filter (fun x => decide (x < 0))
          = [] := by
        rw [List.filter_eq_nil_iff]
        intro a ha
        have ha0 : a = 0 := List.eq_of_mem_replicate ha
        simp [ha0]
      show (match stdOpt ((List.replicate n (0 : ℝ)).filter
            fun x => decide (x < 0)) with
        | none => none
        | some d => if 0 < d
            then some (meanR (List.replicate n (0 : ℝ)) / d * Real.sqrt 252)
            else none) = none
      rw [hfil]
      rfl

/-- C8: on a constant positive price series the indicator equals the price
after warm-up, no crossing ever fires, no buy or sell event is emitted,
total return and maximum drawdown are both `0`, and Sharpe and Sortino are
the not-applicable sentinel for the strategy and the baseline alike. -/
theorem constant_series_scenario (c : ℝ) (w n : ℕ) (hc : 0 < c) (hw : 1 ≤ w)
    (hn : 1 ≤ n) :
    (∀ t, dMA (fun _ : ℕ => c) w t = c) ∧
    (∀ t, 1 ≤ t → signal (fun _ : ℕ => c) (dMA (fun _ : ℕ => c) w) t = 0) ∧
    buy_points (fun _ : ℕ => c) (dMA (fun _ : ℕ => c) w) n = [] ∧
    sell_points (fun _ : ℕ => c) (dMA (fun _ : ℕ => c) w) n = [] ∧
    totalReturn (equityList (ret fun _ : ℕ => c)
      (position (fun _ : ℕ => c) (dMA (fun _ : ℕ => c) w)) n) = 0 ∧
    mddOf (equityList (ret fun _ : ℕ => c)
      (position (fun _ : ℕ => c) (dMA (fun _ : ℕ => c) w)) n) = 0 ∧
    (calc_metrics (stratReturnList (fun _ : ℕ => c)
      (dMA (fun _ : ℕ => c) w) n)).2.1 = none ∧
    (calc_metrics (stratReturnList (fun _ : ℕ => c)
      (dMA (fun _ : ℕ => c) w) n)).2.2 = none ∧
    (calc_metrics (retList (fun _ : ℕ => c) n)).2.1 = none ∧
    (calc_metrics (retList (fun _ : ℕ => c) n)).2.2 = none := by
  have hc0 : c ≠ 0 := ne_of_gt hc
  have hbuy : buy_points (fun _ : ℕ => c) (dMA (fun _ : ℕ => c) w) n = [] := by
    unfold buy_points
    rw [List.map_eq_nil_iff, List.filter_eq_nil_iff]
    intro i _
    cases i with
    | zero => simp
    | succ j => simp [signal_const_zero c w hw (j + 1) (by omega)]
  have hsell : sell_points (fun _ : ℕ => c) (dMA (fun _ : ℕ => c) w) n = [] := by
    unfold sell_points
    rw [List.map_eq_nil_iff, List.filter_eq_nil_iff]
    intro i _
    cases i with
    | zero => simp
    | succ j => simp [signal_const_zero c w hw (j + 1) (by omega)]
  have heq_mem : ∀ x ∈ equityList (ret fun _ : ℕ => c)
      (position (fun _ : ℕ => c) (dMA (fun _ : ℕ => c) w)) n, x = 1 := by
    intro x hx
    unfold equityList at hx
    obtain ⟨i, _, rfl⟩ := List.mem_map.mp hx
    exact equity_const_one c w hc0 hw i
  have heq_rep : equityList (ret fun _ : ℕ => c)
      (position (fun _ : ℕ => c) (dMA (fun _ : ℕ => c) w)) n
      = List.replicate n (1 : ℝ) := by
    have h := List.eq_replicate_of_mem heq_mem
    rwa [show (equityList (ret fun _ : ℕ => c)
        (position (fun _ : ℕ => c) (dMA (fun _ : ℕ => c) w)) n).length = n from by
      unfold equityList
      rw [List.length_map, List.length_range]] at h
  have hstrat_rep : stratReturnList (fun _ : ℕ => c)
      (dMA (fun _ : ℕ => c) w) n = List.replicate n (0 : ℝ) := by
    have hmem : ∀ x ∈ stratReturnList (fun _ : ℕ => c)
        (dMA (fun _ : ℕ => c) w) n, x = 0 := by
      intro x hx
      unfold stratReturnList at hx
      obtain ⟨i, _, rfl⟩ := List.mem_map.mp hx
      exact stratReturn_const_zero c w hc0 i
    have h := List.eq_replicate_of_mem hmem
    rwa [show (stratReturnList (fun _ : ℕ => c)
        (dMA (fun _ : ℕ => c) w) n).length = n from by
      unfold stratReturnList
      rw [List.length_map, List.length_range]] at h
  have hret_rep : retList (fun _ : ℕ => c) n = List.replicate n (0 : ℝ) := by
    have hmem : ∀ x ∈ retList (fun _ : ℕ => c) n, x = 0 := by
      intro x hx
      unfold retList at hx
      obtain ⟨i, _, rfl⟩ := List.mem_map.mp hx
      exact ret_const c hc0 i
    have h := List.eq_replicate_of_mem hmem
    rwa [show (retList (fun _ : ℕ => c) n).length = n from by
      unfold retList
      rw [List.length_map, List.length_range]] at h
  refine ⟨dMA_const c w hw, fun t ht => signal_const_zero c w hw t ht,
    hbuy, hsell, ?_, ?_, ?_, ?_, ?_, ?_⟩
  · unfold totalReturn
    rw [all_one_getLastD _ heq_mem]
    ring
  · rw [heq_rep]
    exact mddOf_replicate_one n hn
  · rw [hstrat_rep]
    exact (calc_metrics_zeros n).1
  · rw [hstrat_rep]
    exact (calc_metrics_zeros n).2
  · rw [hret_rep]
    exact (calc_metrics_zeros n).1
  · rw [hret_rep]
    exact (calc_metrics_zeros n).2

/-- C8 (witness): the scenario instantiated at the constant price 5, a 2-day
window and a 3-day frame. -/
theorem constant_series_scenario_witness :
    ((0 : ℝ) < 5 ∧ (1 : ℕ) ≤ 2 ∧ (1 : ℕ) ≤ 3) ∧
    ((∀ t, dMA (fun _ : ℕ => (5 : ℝ)) 2 t = 5) ∧
     (∀ t, 1 ≤ t →
        signal (fun _ : ℕ => (5 : ℝ)) (dMA (fun _ : ℕ => (5 : ℝ)) 2) t = 0) ∧
     buy_points (fun _ : ℕ => (5 : ℝ)) (dMA (fun _ : ℕ => (5 : ℝ)) 2) 3 = [] ∧
     sell_points (fun _ : ℕ => (5 : ℝ)) (dMA (fun _ : ℕ => (5 : ℝ)) 2) 3 = [] ∧
     totalReturn (equityList (ret fun _ : ℕ => (5 : ℝ))
       (position (fun _ : ℕ => (5 : ℝ)) (dMA (fun _ : ℕ => (5 : ℝ)) 2)) 3) = 0 ∧
     mddOf (equityList (ret fun _ : ℕ => (5 : ℝ))
       (position (fun _ : ℕ => (5 : ℝ)) (dMA (fun _ : ℕ => (5 : ℝ)) 2)) 3) = 0 ∧
     (calc_metrics (stratReturnList (fun _ : ℕ => (5 : ℝ))
       (dMA (fun _ : ℕ => (5 : ℝ)) 2) 3)).2.1 = none ∧
     (calc_metrics (stratReturnList (fun _ : ℕ => (5 : ℝ))
       (dMA (fun _ : ℕ => (5 : ℝ)) 2) 3)).2.2 = none ∧
     (calc_metrics (retList (fun _ : ℕ => (5 : ℝ)) 3)).2.1 = none ∧
     (calc_metrics (retList (fun _ : ℕ => (5 : ℝ)) 3)).2.2 = none) :=
  ⟨⟨by norm_num, by norm_num, by norm_num⟩,
    constant_series_scenario 5 2 3 (by norm_num) (by norm_num) (by norm_num)⟩

end LRS
